import Mathlib

/-!
Verification of `src/web/src/locales/locale_updater.py`.

The script manipulates nested JSON locale documents (string-keyed mappings
whose leaves are strings).  We embed Python values shallowly:

* a Python `str` becomes `List Char` (its sequence of code points);
* a Python `dict` becomes an association list in insertion order;
  flat mappings are `List (Str × Str)` with `dget?` / `dassign` / `dunion`
  modelling item lookup, item assignment and the `|=` update operator;
* a nested locale document becomes the mutual inductive pair `LD` / `LDict`
  (`LDict` is the insertion-ordered entry list of a nested dict, kept as its
  own inductive so that every function below is structurally recursive and
  computable by the kernel);
* functions that can raise (`unflatten_json` on conflicting keys,
  `ref_flat[key]`) return `Option`, `none` standing for an uncaught exception.

All functions of the script are only ever invoked with the default separator
`":"`, so the embeddings fix `sep = ':'`.
-/

set_option autoImplicit false

namespace LocaleUpdater

/-- A Python string, modelled as its list of characters. -/
abbrev Str := List Char

/-- The keys of an association list modelling a Python dict, in insertion order. -/
def keysOf {α : Type} (d : List (Str × α)) : List Str := d.map Prod.fst

/-- Python dict lookup `d[key]` / `d.get(key)`: the first binding of the key. -/
def dget? {α : Type} : List (Str × α) → Str → Option α
  | [], _ => none
  | (k, v) :: rest, key => if k = key then some v else dget? rest key

/-- Python dict assignment `d[key] = v`: replace the binding in place if the
key is present, otherwise append the new binding at the end. -/
def dassign {α : Type} : List (Str × α) → Str → α → List (Str × α)
  | [], key, v => [(key, v)]
  | (k, w) :: rest, key, v =>
      if k = key then (k, v) :: rest else (k, w) :: dassign rest key v

/-- Python dict union-update `d1 |= d2`: assign every binding of `d2` into
`d1`, in `d2`'s iteration order. -/
def dunion {α : Type} (d1 d2 : List (Str × α)) : List (Str × α) :=
  d2.foldl (fun acc e => dassign acc e.1 e.2) d1

mutual
/-- A locale document value: either a leaf string or a nested dict. -/
inductive LD where
  | leaf : Str → LD
  | node : LDict → LD
/-- The entries of a nested dict, in insertion order. -/
inductive LDict where
  | nil : LDict
  | cons : Str → LD → LDict → LDict
end

/-- Convert a plain association list into an `LDict` (for writing literals). -/
def ofL : List (Str × LD) → LDict
  | [] => .nil
  | (k, v) :: rest => .cons k v (ofL rest)

/-- The keys of a nested dict, in insertion order. -/
def LDict.keys : LDict → List Str
  | .nil => []
  | .cons k _ rest => k :: rest.keys

/-- Python dict lookup on a nested dict. -/
def LDict.get? : LDict → Str → Option LD
  | .nil, _ => none
  | .cons k v rest, key => if k = key then some v else rest.get? key

/-- Python dict assignment on a nested dict: replace in place or append. -/
def LDict.assign : LDict → Str → LD → LDict
  | .nil, key, v => .cons key v .nil
  | .cons k w rest, key, v =>
      if k = key then .cons k v rest else .cons k w (rest.assign key v)

/-- Python `key.split(":")`: split a string at every `':'`.  The result is
never empty; splitting the empty string yields `[""]`. -/
def splitColon : Str → List Str
  | [] => [[]]
  | c :: rest =>
      if c = ':' then [] :: splitColon rest
      else
        match splitColon rest with
        | [] => [[c]]
        | s :: ss => (c :: s) :: ss

/-- The composite key built in `flatten_json`:
`new_key = parent_key + sep + key if parent_key else key` with `sep = ":"`. -/
def newKey (parent key : Str) : Str :=
  if parent = [] then key else parent ++ ':' :: key

mutual
/-- The loop of `flatten_json`: walk the entries of `nested_json` in order,
threading the accumulated `flattened_dict`. -/
def flatten_go : LDict → Str → List (Str × Str) → List (Str × Str)
  | .nil, _, acc => acc
  | .cons key v rest, parent, acc =>
      flatten_go rest parent (flattenEntry v (newKey parent key) acc)
/-- The body of `flatten_json`'s loop for one entry: a dict value recurses
(with a fresh accumulator) and is merged into the accumulator with `|=`;
any other value is assigned under the composite key. -/
def flattenEntry : LD → Str → List (Str × Str) → List (Str × Str)
  | .leaf s, nk, acc => dassign acc nk s
  | .node sub, nk, acc => dunion acc (flatten_go sub nk [])
end

/-- The script's `flatten_json(nested_json)` with the default
`parent_key = ""` and `sep = ":"`. -/
def flatten_json (nested_json : LDict) : List (Str × Str) :=
  flatten_go nested_json [] []

/-- One iteration of `unflatten_json`'s loop: walk `parts`, creating empty
intermediate dicts for absent segments, and assign the value at the last
segment.  Reaching a non-dict value anywhere on the walk raises a
`TypeError` in Python, modelled as `none`. -/
def setPath : LDict → List Str → Str → Option LDict
  | _, [], _ => none
  | d, [last], v => some (d.assign last (LD.leaf v))
  | d, part :: p :: ps, v =>
      match d.get? part with
      | none => (setPath .nil (p :: ps) v).map (fun sub => d.assign part (LD.node sub))
      | some (LD.node sub) => (setPath sub (p :: ps) v).map (fun s => d.assign part (LD.node s))
      | some (LD.leaf _) => none

/-- The script's `unflatten_json(flattened_dict)` with the default
`sep = ":"`: fold `setPath` over the entries in iteration order. -/
def unflatten_json (flattened_dict : List (Str × Str)) : Option LDict :=
  flattened_dict.foldlM (fun acc e => setPath acc (splitColon e.1) e.2) .nil

/-- The script's `missing_keys = set(ref_flat.keys()) - set(tgt_flat.keys())`.
The set is represented by the sublist of `ref_flat`'s keys absent from
`tgt_flat`; only its membership is meaningful. -/
def missing_keys (ref_flat tgt_flat : List (Str × Str)) : List Str :=
  (keysOf ref_flat).filter (fun k => decide (¬ k ∈ keysOf tgt_flat))

/-- Generic Python `s.split(sep)` for a one-character separator (the script
splits on `"."`, `"_"` and `":"`, all single characters).  `splitColon`
coincides with `splitChar ':'`. -/
def splitChar (sep : Char) : Str → List Str
  | [] => [[]]
  | c :: rest =>
      if c = sep then [] :: splitChar sep rest
      else
        match splitChar sep rest with
        | [] => [[c]]
        | s :: ss => (c :: s) :: ss

/-- The `lang_map` table of `get_code_name`, in source order. -/
def lang_map : List (Str × Str) :=
  [("de".data, "de".data), ("en".data, "en".data), ("es".data, "es".data),
   ("fr".data, "fr".data), ("it".data, "it".data), ("ko".data, "ko".data),
   ("nl".data, "nl".data), ("pl".data, "pl".data), ("pt".data, "pt-BR".data),
   ("ru".data, "ru".data), ("sl".data, "sl".data), ("sv".data, "sv".data),
   ("tr".data, "tr".data), ("uk".data, "uk".data), ("vi".data, "vi".data),
   ("zh-Hant".data, "zh-TW".data), ("zh".data, "zh-CN".data)]

/-- The script's `file_parts = json_filename.split(".")[0].split("_")`.
`split` never returns an empty list, so indexing with `[0]` cannot fail. -/
def file_parts (json_filename : Str) : List Str :=
  splitChar '_' ((splitChar '.' json_filename).headD [])

/-- The script's `lang_code = file_parts[0]`. -/
def lang_code (json_filename : Str) : Str := (file_parts json_filename).headD []

/-- The script's `country_code = file_parts[1] if len(file_parts) > 1 else ""`. -/
def country_code (json_filename : Str) : Str := (file_parts json_filename).getD 1 []

/-- The script's `get_code_name`: look the language segment up in `lang_map`
with default `""` (`lang_map.get(lang_code, "")`), then, when a country
segment is present (`if country_code:`), append `"-" + country_code.upper()`.
Python's `str.upper()` on the ASCII region codes is per-character
`Char.toUpper`. -/
def get_code_name (json_filename : Str) : Str :=
  let code_name := (dget? lang_map (lang_code json_filename)).getD []
  if country_code json_filename = [] then code_name
  else code_name ++ '-' :: (country_code json_filename).map Char.toUpper

/-- Python `source_text.replace("\r\n", " ")` as performed by
`google_translate` before building the request body: scan left to right,
replacing each non-overlapping occurrence of the two-character sequence
`"\r\n"` by one space. -/
def replaceCRLF : Str → Str
  | [] => []
  | [c] => [c]
  | a :: b :: rest =>
      if a = '\r' ∧ b = '\n' then ' ' :: replaceCRLF rest
      else a :: replaceCRLF (b :: rest)

/-- The request body built by `google_translate`:
`post_content = "q=" + source_text.replace(new_line, " ")` with
`new_line = "\r\n"`. -/
def google_post_content (source_text : Str) : Str :=
  "q=".data ++ replaceCRLF source_text

/-- Whether a string contains the two-character line-break sequence `"\r\n"`. -/
def hasCRLF : Str → Bool
  | [] => false
  | [_] => false
  | a :: b :: rest => (decide (a = '\r') && decide (b = '\n')) || hasCRLF (b :: rest)

/-- Whether a string contains any of the line-break characters `'\n'`, `'\r'`. -/
def hasLineBreak (s : Str) : Bool := s.contains '\n' || s.contains '\r'

/-- Python string comparison `a <= b`: lexicographic by code point. -/
def leStr : Str → Str → Bool
  | [], _ => true
  | _ :: _, [] => false
  | a :: s, b :: t => if a = b then leStr s t else decide (a < b)

/-- Insert an entry into a dict sorted by `leStr` on keys, before the first
entry with a `leStr`-greater-or-equal key (stable sorted insertion). -/
def insortEntry (k : Str) (v : LD) : LDict → LDict
  | .nil => .cons k v .nil
  | .cons k2 v2 rest =>
      if leStr k k2 then .cons k v (.cons k2 v2 rest)
      else .cons k2 v2 (insortEntry k v rest)

mutual
/-- The script's `sort_nested_json`: rebuild every dict with its keys in
Python's `sorted` order and its values recursively sorted, realized by a
stable insertion sort.  (The function's list branch is unreachable on locale
documents, whose values are strings and dicts only.) -/
def sort_nested_json : LD → LD
  | .leaf s => .leaf s
  | .node es => .node (sortDict es)
/-- Entry list of `sort_nested_json` on a dict. -/
def sortDict : LDict → LDict
  | .nil => .nil
  | .cons k v rest => insortEntry k (sort_nested_json v) (sortDict rest)
end

/-- The interactive merge loop of `__main__`, one iteration per missing key:
look up the reference value `ref_flat[key]` (a `KeyError` is `none`), obtain
the machine-translation candidate from the `translate` collaborator (the
`google_translate` call for the run's fixed language pair), read the
operator's line (`user key`; the processed keys are pairwise distinct, so
indexing the prompt stream by key is faithful), take the candidate when the
line is empty (`if proposal == ""`), and store the result with
`tgt_flat[key] = proposal`. -/
def merge_loop (ref_flat : List (Str × Str)) (translate user : Str → Str) :
    List Str → List (Str × Str) → Option (List (Str × Str))
  | [], tgt_flat => some tgt_flat
  | key :: rest, tgt_flat =>
      match dget? ref_flat key with
      | none => none
      | some src =>
          let proposal_google := translate src
          let proposal := if user key = [] then proposal_google else user key
          merge_loop ref_flat translate user rest (dassign tgt_flat key proposal)

/-- Outcome of one run of `__main__` after the two locale files are loaded:
`earlyExit` is the `exit()` taken when no key is missing (process status 0,
reached before any translation call or prompt; it carries the untouched
target flat mapping), `completed` carries the merged flat mapping that the
script then unflattens and writes, `error` is an uncaught exception. -/
inductive RunOutcome where
  | earlyExit : List (Str × Str) → RunOutcome
  | completed : List (Str × Str) → RunOutcome
  | error : RunOutcome

/-- The `__main__` block after loading the two locale documents: flatten
both, compute the missing keys, short-circuit with `exit()` when
`len(missing_keys) == 0`, otherwise run the interactive merge loop. -/
def run_main (ref tgt : LDict) (translate user : Str → Str) : RunOutcome :=
  let ref_flat := flatten_json ref
  let tgt_flat := flatten_json tgt
  let mk := missing_keys ref_flat tgt_flat
  if mk.length = 0 then .earlyExit tgt_flat
  else
    match merge_loop ref_flat translate user mk tgt_flat with
    | none => .error
    | some tgt2 => .completed tgt2

/-- Emptiness test for `LDict`. -/
def LDict.isEmpty : LDict → Bool
  | .nil => true
  | .cons _ _ _ => false

mutual
/-- Claim C1's hypothesis on a document: no key (at any depth) contains the
separator `':'`. -/
def colonFreeD : LDict → Bool
  | .nil => true
  | .cons k v rest => !(k.contains ':') && colonFreeV v && colonFreeD rest
/-- Value part of `colonFreeD`. -/
def colonFreeV : LD → Bool
  | .leaf _ => true
  | .node es => colonFreeD es
end

mutual
/-- Well-formed locale document: at every depth the keys are nonempty,
contain no `':'` and are pairwise distinct, and every branch value is a
nonempty dict (as any real `dict` has distinct keys; the other three
conditions are what the round-trip law turns out to require). -/
def wfD : LDict → Bool
  | .nil => true
  | .cons k v rest =>
      !(k.isEmpty) && !(k.contains ':') && !(decide (k ∈ rest.keys)) && wfV v && wfD rest
/-- Value part of `wfD`. -/
def wfV : LD → Bool
  | .leaf _ => true
  | .node es => !es.isEmpty && wfD es
end

mutual
/-- The leaves of a document in preorder, each with its path of keys. -/
def leavesD : LDict → List (List Str × Str)
  | .nil => []
  | .cons k v rest => leavesV k v ++ leavesD rest
/-- Leaves contributed by a single entry. -/
def leavesV : Str → LD → List (List Str × Str)
  | k, .leaf s => [([k], s)]
  | k, .node sub => (leavesD sub).map (fun e => (k :: e.1, e.2))
end

/-- Join a nonempty list of segments with `':'` (left inverse of
`splitColon` on colon-free segments). -/
def joinSeg : List Str → Str
  | [] => []
  | s :: t =>
      match t with
      | [] => s
      | _ :: _ => s ++ ':' :: joinSeg t

/-- Whether the first segment list is a prefix of the second. -/
def isPfx : List Str → List Str → Bool
  | [], _ => true
  | _ :: _, [] => false
  | a :: p, b :: q => decide (a = b) && isPfx p q

/-- The value stored in a document at a composite-key path. -/
def getPath : LDict → List Str → Option LD
  | _, [] => none
  | d, [k] => d.get? k
  | d, k :: p :: ps =>
      match d.get? k with
      | some (LD.node sub) => getPath sub (p :: ps)
      | _ => none

/-- A key segment fit for round-tripping: nonempty and free of the separator. -/
def goodSeg (s : Str) : Bool := !s.isEmpty && !(s.contains ':')

/-- A leaf path fit for round-tripping: nonempty with good segments. -/
def goodPath (p : List Str) : Bool := !p.isEmpty && p.all goodSeg

/-- Concatenation of nested dict entry lists (proof-side helper). -/
def LDict.append : LDict → LDict → LDict
  | .nil, e => e
  | .cons k v rest, e => .cons k v (rest.append e)

instance : Append LDict := ⟨LDict.append⟩

/-- Insert a list of path-value pairs into a document, in order (the loop of
`unflatten_json` after the keys are split). -/
def insertPaths (acc : LDict) (l : List (List Str × Str)) : Option LDict :=
  l.foldlM (fun a e => setPath a e.1 e.2) acc

/-- The value one `unflatten_json` iteration stores under the first segment
of its (nonempty) path, as a function of the current value at that segment:
a leaf for a one-segment path, otherwise the recursive result on the
remaining segments (`setPath_eq_entryStep` below). -/
def entryStep : Option LD → List Str → Str → Option LD
  | _, [], v => some (LD.leaf v)
  | cur, p :: ps, v =>
      match cur with
      | none => (setPath .nil (p :: ps) v).map LD.node
      | some (LD.node t) => (setPath t (p :: ps) v).map LD.node
      | some (LD.leaf _) => none

/-! ### Basic lemmas about the dict model -/

@[simp] theorem keysOf_nil {α : Type} : keysOf ([] : List (Str × α)) = [] := rfl

@[simp] theorem keysOf_cons {α : Type} (e : Str × α) (rest : List (Str × α)) :
    keysOf (e :: rest) = e.1 :: keysOf rest := rfl

theorem keysOf_append {α : Type} (d1 d2 : List (Str × α)) :
    keysOf (d1 ++ d2) = keysOf d1 ++ keysOf d2 := by
  simp [keysOf]

theorem dget?_eq_none {α : Type} (d : List (Str × α)) (k : Str) :
    dget? d k = none ↔ k ∉ keysOf d := by
  induction d with
  | nil => simp [dget?]
  | cons e rest ih =>
    obtain ⟨k1, v1⟩ := e
    by_cases h : k1 = k
    · subst h; simp [dget?]
    · have h2 : ¬ k = k1 := fun hh => h hh.symm
      simp [dget?, h, h2, ih]

theorem dget?_isSome_iff {α : Type} (d : List (Str × α)) (k : Str) :
    (dget? d k).isSome = true ↔ k ∈ keysOf d := by
  rw [Option.isSome_iff_ne_none, not_iff_comm, ← dget?_eq_none]

theorem dget?_dassign_self {α : Type} (d : List (Str × α)) (k : Str) (v : α) :
    dget? (dassign d k v) k = some v := by
  induction d with
  | nil => simp [dassign, dget?]
  | cons e rest ih =>
    obtain ⟨k1, v1⟩ := e
    by_cases h : k1 = k <;> simp [dassign, dget?, h, ih]

theorem dget?_dassign_ne {α : Type} (d : List (Str × α)) (k key : Str) (v : α)
    (h : key ≠ k) : dget? (dassign d k v) key = dget? d key := by
  have h2 : ¬ k = key := fun hh => h hh.symm
  induction d with
  | nil => simp [dassign, dget?, h2]
  | cons e rest ih =>
    obtain ⟨k1, v1⟩ := e
    by_cases h1 : k1 = k
    · subst h1; simp [dassign, dget?, h2, ih]
    · simp [dassign, dget?, h1, ih]

theorem dassign_of_not_mem {α : Type} (d : List (Str × α)) (k : Str) (v : α)
    (h : k ∉ keysOf d) : dassign d k v = d ++ [(k, v)] := by
  induction d with
  | nil => simp [dassign]
  | cons e rest ih =>
    obtain ⟨k1, v1⟩ := e
    simp only [keysOf_cons, List.mem_cons] at h
    push_neg at h
    have h1 : ¬ k1 = k := fun hh => h.1 hh.symm
    simp [dassign, h1, ih h.2]

theorem keysOf_dassign_subset {α : Type} (d : List (Str × α)) (k key : Str) (v : α)
    (h : key ∈ keysOf (dassign d k v)) : key ∈ keysOf d ∨ key = k := by
  induction d with
  | nil =>
    simp [dassign] at h
    right; exact h
  | cons e rest ih =>
    obtain ⟨k1, v1⟩ := e
    by_cases h1 : k1 = k
    · subst h1
      simp [dassign] at h
      rcases h with h | h
      · left; simp [h]
      · left; simp [h]
    · simp [dassign, h1] at h
      rcases h with h | h
      · left; simp [h]
      · rcases ih h with h2 | h2
        · left; simp; right; exact h2
        · right; exact h2

/-! ### Claim C2: concrete `get_code_name` results -/

/-- C2 counterexample: the spec says `resolveCode("pt_BR.json") == "pt-BR"`,
but `get_code_name` maps the language segment `pt` to `pt-BR` and then
appends the upper-cased region suffix `-BR` again, returning `"pt-BR-BR"`. -/
theorem c2_counterexample : get_code_name "pt_BR.json".data ≠ "pt-BR".data := by decide

/-- C2 amended: `get_code_name "pt_BR.json" = "pt-BR-BR"` (not `"pt-BR"`);
the other two values are as the claim states:
`get_code_name "zh.json" = "zh-CN"` and `get_code_name "xx.json" = ""`. -/
theorem c2_amended :
    get_code_name "pt_BR.json".data = "pt-BR-BR".data ∧
    get_code_name "zh.json".data = "zh-CN".data ∧
    get_code_name "xx.json".data = "".data :=
  ⟨rfl, rfl, rfl⟩

/-! ### Claim C3: unknown language codes -/

/-- C3 counterexample: for the filename `"xx_YY.json"`, whose language
segment `xx` is not in the table, `get_code_name` does not return the empty
string: the region suffix is still appended, giving `"-YY"`. -/
theorem c3_counterexample :
    get_code_name "xx_YY.json".data = "-YY".data ∧ get_code_name "xx_YY.json".data ≠ [] :=
  ⟨rfl, by decide⟩

/-- C3 amended: when the language segment is unknown the table lookup yields
`""`; the result is the empty string exactly when no region segment is
present, and `"-" + region.upper()` when one is. -/
theorem c3_amended (json_filename : Str)
    (h : dget? lang_map (lang_code json_filename) = none) :
    get_code_name json_filename =
      (if country_code json_filename = [] then []
       else '-' :: (country_code json_filename).map Char.toUpper) := by
  unfold get_code_name
  rw [h]
  by_cases hc : country_code json_filename = [] <;> simp [hc]

/-- Witness for C3's amended theorem at the concrete input `"xx_YY.json"`. -/
theorem c3_witness :
    get_code_name "xx_YY.json".data =
      (if country_code "xx_YY.json".data = [] then []
       else '-' :: (country_code "xx_YY.json".data).map Char.toUpper) :=
  c3_amended "xx_YY.json".data (by decide)

/-! ### Claim C4: the missing-key set -/

/-- C4: the missing-key set is empty iff every key of the reference flat
mapping appears among the target's keys, and its membership depends only on
the two key sets, never on the stored values. -/
theorem c4_missing_keys (rf tf rf2 tf2 : List (Str × Str)) :
    (missing_keys rf tf = [] ↔ ∀ k ∈ keysOf rf, k ∈ keysOf tf) ∧
    ((∀ k, k ∈ keysOf rf ↔ k ∈ keysOf rf2) →
     (∀ k, k ∈ keysOf tf ↔ k ∈ keysOf tf2) →
     ∀ k, k ∈ missing_keys rf tf ↔ k ∈ missing_keys rf2 tf2) := by
  constructor
  · simp [missing_keys, List.filter_eq_nil_iff]
  · intro h1 h2 k
    simp [missing_keys, List.mem_filter, h1 k, h2 k]

/-- Witness for C4 at concrete inputs with identical key sets but different
values. -/
theorem c4_witness :
    missing_keys [("a".data, "x".data)] [("a".data, "y".data)] = [] :=
  (c4_missing_keys [("a".data, "x".data)] [("a".data, "y".data)] [] []).1.mpr (by decide)

/-! ### Claim C8: line breaks in the translation request body -/

/-- C8 counterexample: `replace("\r\n", " ")` only rewrites the two-character
sequence CR LF, so a lone `'\n'` in the source text survives into the
request body, which therefore can contain a line break. -/
theorem c8_counterexample : hasLineBreak (google_post_content "a\nb".data) = true := rfl

theorem hasCRLF_cons (a : Char) (l : Str)
    (h : ∀ c t, l = c :: t → ¬(a = '\r' ∧ c = '\n')) : hasCRLF (a :: l) = hasCRLF l := by
  cases l with
  | nil => rfl
  | cons c t =>
    have := h c t rfl
    simp only [hasCRLF]
    rcases Decidable.em (a = '\r') with h1 | h1
    · have h2 : ¬ c = '\n' := fun hc => this ⟨h1, hc⟩
      simp [h2]
    · simp [h1]

theorem replaceCRLF_head (b : Char) (r : Str) (c : Char) (t : Str)
    (h : replaceCRLF (b :: r) = c :: t) : c = b ∨ c = ' ' := by
  cases r with
  | nil => simp [replaceCRLF] at h; left; exact h.1.symm
  | cons r2 rr =>
    by_cases hb : b = '\r' ∧ r2 = '\n'
    · simp [replaceCRLF, hb] at h; right; exact h.1.symm
    · simp [replaceCRLF, hb] at h; left; exact h.1.symm

theorem hasCRLF_replaceCRLF (s : Str) : hasCRLF (replaceCRLF s) = false := by
  induction s using replaceCRLF.induct with
  | case1 => rfl
  | case2 c => rfl
  | case3 a b rest hab ih =>
    obtain ⟨rfl, rfl⟩ := hab
    show hasCRLF (' ' :: replaceCRLF rest) = false
    rw [hasCRLF_cons ' ' _ (fun c t _ h => absurd h.1 (by decide))]
    exact ih
  | case4 a b rest hab ih =>
    rw [show replaceCRLF (a :: b :: rest)
          = if a = '\r' ∧ b = '\n' then ' ' :: replaceCRLF rest
            else a :: replaceCRLF (b :: rest) from rfl,
        if_neg hab]
    have hside : ∀ c t, replaceCRLF (b :: rest) = c :: t → ¬(a = '\r' ∧ c = '\n') := by
      intro c t hct h
      rcases replaceCRLF_head b rest c t hct with rfl | rfl
      · exact hab ⟨h.1, h.2⟩
      · exact absurd h.2 (by decide)
    rw [hasCRLF_cons a _ hside]
    exact ih

/-- C8 amended: what is normalized before sending is every occurrence of the
two-character sequence `"\r\n"` (the script's `new_line`), each replaced by
one space, so the request body never contains `"\r\n"`; lone `'\n'` or
`'\r'` characters are not replaced and can appear in the body. -/
theorem c8_amended (source_text : Str) :
    hasCRLF (google_post_content source_text) = false := by
  unfold google_post_content
  show hasCRLF ('q' :: '=' :: replaceCRLF source_text) = false
  rw [hasCRLF_cons, hasCRLF_cons]
  · exact hasCRLF_replaceCRLF source_text
  · intro c t _ h; exact absurd h.1 (by decide)
  · intro c t _ h; exact absurd h.1 (by decide)

/-! ### Claim C10: empty branch mappings flatten to nothing -/

/-- C10: an empty branch mapping contributes no entries: concretely
`flatten_json {"a": {}} = {}`, in general an entry whose value is the empty
dict leaves the accumulated flat mapping untouched at any nesting depth, and
consequently such branches are absent from `unflatten_json (flatten_json d)`
(here the round-trip of `{"a": {}}` is the empty document). -/
theorem c10_empty_branches :
    flatten_json (ofL [("a".data, LD.node .nil)]) = [] ∧
    (∀ (k : Str) (rest : LDict) (parent : Str) (acc : List (Str × Str)),
      flatten_go (.cons k (LD.node .nil) rest) parent acc = flatten_go rest parent acc) ∧
    unflatten_json (flatten_json (ofL [("a".data, LD.node .nil)])) = some .nil :=
  ⟨rfl, fun _ _ _ _ => rfl, rfl⟩

/-! ### Claims C5, C6, C9: the interactive merge loop -/

theorem merge_loop_frame (ref_flat : List (Str × Str)) (translate user : Str → Str)
    (ks : List Str) (tf res : List (Str × Str)) (k : Str)
    (hk : k ∉ ks) (h : merge_loop ref_flat translate user ks tf = some res) :
    dget? res k = dget? tf k := by
  induction ks generalizing tf with
  | nil =>
    simp only [merge_loop] at h
    rw [← Option.some.inj h]
  | cons key rest ih =>
    have hne : k ≠ key := fun hh => hk (hh ▸ List.mem_cons_self key rest)
    have hrest : k ∉ rest := fun hh => hk (List.mem_cons_of_mem key hh)
    cases hsrc : dget? ref_flat key with
    | none => simp [merge_loop, hsrc] at h
    | some src =>
      simp only [merge_loop, hsrc] at h
      rw [ih _ hrest h, dget?_dassign_ne _ _ _ _ hne]

/-- C5: when the missing-key set is empty, the run takes the short-circuit
`exit()` (status 0) with the target flat mapping untouched, and the outcome
does not depend on the translation collaborator or the operator input at
all, i.e. zero translation calls and zero prompts are performed. -/
theorem c5_early_exit (ref tgt : LDict) (translate user : Str → Str)
    (h : missing_keys (flatten_json ref) (flatten_json tgt) = []) :
    run_main ref tgt translate user = .earlyExit (flatten_json tgt) ∧
    (∀ translate2 user2 : Str → Str,
      run_main ref tgt translate user = run_main ref tgt translate2 user2) := by
  have h0 : (missing_keys (flatten_json ref) (flatten_json tgt)).length = 0 := by
    rw [h]; rfl
  exact ⟨by simp [run_main, h0], fun t2 u2 => by simp [run_main, h0]⟩

/-- Witness for C5 at concrete locale documents with identical key sets. -/
theorem c5_witness :
    run_main (ofL [("a".data, LD.leaf "x".data)]) (ofL [("a".data, LD.leaf "y".data)])
      (fun _ => "G".data) (fun _ => [])
    = .earlyExit (flatten_json (ofL [("a".data, LD.leaf "y".data)])) :=
  (c5_early_exit (ofL [("a".data, LD.leaf "x".data)]) (ofL [("a".data, LD.leaf "y".data)])
    (fun _ => "G".data) (fun _ => []) (by decide)).1

/-- C6: for each key the merge loop processes, the value stored in the target
flat mapping under exactly that key is the machine-translation candidate when
the operator's input is empty, and the operator's input otherwise. -/
theorem c6_accept_or_override (ref_flat : List (Str × Str)) (translate user : Str → Str)
    (ks : List Str) (tf res : List (Str × Str)) (k src : Str)
    (hnd : ks.Nodup) (hk : k ∈ ks) (hsrc : dget? ref_flat k = some src)
    (hrun : merge_loop ref_flat translate user ks tf = some res) :
    dget? res k = some (if user k = [] then translate src else user k) := by
  induction ks generalizing tf with
  | nil => cases hk
  | cons key rest ih =>
    cases hk0 : dget? ref_flat key with
    | none => simp [merge_loop, hk0] at hrun
    | some s0 =>
      simp only [merge_loop, hk0] at hrun
      rcases List.mem_cons.mp hk with rfl | hk2
      · have hs : s0 = src := by
          rw [hk0] at hsrc
          exact Option.some.inj hsrc
        subst hs
        have hnot : k ∉ rest := (List.nodup_cons.mp hnd).1
        rw [merge_loop_frame _ _ _ _ _ _ _ hnot hrun, dget?_dassign_self]
      · exact ih _ (List.nodup_cons.mp hnd).2 hk2 hrun

/-- Witness for C6: one missing key, empty operator input, candidate `"G"`
stored. -/
theorem c6_witness :
    dget? [("a".data, "G".data)] "a".data = some "G".data :=
  c6_accept_or_override [("a".data, "x".data)] (fun _ => "G".data) (fun _ => [])
    ["a".data] [] [("a".data, "G".data)] "a".data "x".data
    (by decide) (by decide) (by decide) (by decide)

/-- C9 counterexample: the merge loop indeed never rewrites an existing key
of the target flat mapping, but the claim's parenthetical about the
unflattened output document fails.  With reference `{"a": "x"}` and target
`{"a": {"b": "y"}}` the missing key `"a"` is appended to the target flat
mapping `{"a:b": "y"}`; the flat value of `"a:b"` survives unchanged, yet
unflattening turns `"a"` into a leaf, so the output document no longer
contains any value at the path of `"a:b"` (the input target document holds
`"y"` there). -/
theorem c9_counterexample :
    run_main (ofL [("a".data, LD.leaf "x".data)])
        (ofL [("a".data, LD.node (ofL [("b".data, LD.leaf "y".data)]))])
        (fun _ => "Z".data) (fun _ => [])
      = .completed [("a:b".data, "y".data), ("a".data, "Z".data)] ∧
    "a:b".data ∈ keysOf (flatten_json
        (ofL [("a".data, LD.node (ofL [("b".data, LD.leaf "y".data)]))])) ∧
    dget? [("a:b".data, "y".data), ("a".data, "Z".data)] "a:b".data = some "y".data ∧
    unflatten_json [("a:b".data, "y".data), ("a".data, "Z".data)]
      = some (ofL [("a".data, LD.leaf "Z".data)]) ∧
    getPath (ofL [("a".data, LD.leaf "Z".data)]) (splitColon "a:b".data) = none ∧
    getPath (ofL [("a".data, LD.node (ofL [("b".data, LD.leaf "y".data)]))])
        (splitColon "a:b".data) = some (LD.leaf "y".data) :=
  ⟨rfl, by decide, rfl, rfl, rfl, rfl⟩

/-- C9 amended: for every key present in the original target flat mapping,
the merge loop never writes to it, so its value in the final merged flat
mapping equals its value in the flattened input target document; only
missing keys are assigned.  (The claim's further step to the unflattened
output document fails when a missing key's path conflicts with an existing
target path, see the counterexample.) -/
theorem c9_frame (ref tgt : LDict) (translate user : Str → Str) (k : Str)
    (res : List (Str × Str))
    (hk : k ∈ keysOf (flatten_json tgt))
    (hrun : run_main ref tgt translate user = .completed res) :
    dget? res k = dget? (flatten_json tgt) k := by
  unfold run_main at hrun
  by_cases h0 : (missing_keys (flatten_json ref) (flatten_json tgt)).length = 0
  · simp [h0] at hrun
  · simp only [h0, if_false] at hrun
    cases hml : merge_loop (flatten_json ref) translate user
        (missing_keys (flatten_json ref) (flatten_json tgt)) (flatten_json tgt) with
    | none => rw [hml] at hrun; cases hrun
    | some tgt2 =>
      rw [hml] at hrun
      have hres : tgt2 = res := by
        cases hrun; rfl
      subst hres
      have hnotmk : k ∉ missing_keys (flatten_json ref) (flatten_json tgt) := by
        intro hmem
        have := List.of_mem_filter hmem
        simp at this
        exact this hk
      exact merge_loop_frame _ _ _ _ _ _ _ hnotmk hml

/-- Witness for C9's amended theorem: the run of the counterexample above,
at the untouched key `"a:b"`. -/
theorem c9_witness :
    dget? [("a:b".data, "y".data), ("a".data, "Z".data)] "a:b".data
      = dget? (flatten_json (ofL [("a".data, LD.node (ofL [("b".data, LD.leaf "y".data)]))]))
          "a:b".data :=
  c9_frame (ofL [("a".data, LD.leaf "x".data)])
    (ofL [("a".data, LD.node (ofL [("b".data, LD.leaf "y".data)]))])
    (fun _ => "Z".data) (fun _ => []) "a:b".data
    [("a:b".data, "y".data), ("a".data, "Z".data)] (by decide) rfl

/-! ### Claim C1: the round-trip law -/

theorem splitColon_ne_nil (s : Str) : splitColon s ≠ [] := by
  induction s with
  | nil => simp [splitColon]
  | cons c rest ih =>
    by_cases h : c = ':'
    · simp [splitColon, h]
    · simp only [splitColon, if_neg h]
      cases hs : splitColon rest with
      | nil => simp
      | cons s ss => simp

theorem splitColon_no_colon (s : Str) (h : ':' ∉ s) : splitColon s = [s] := by
  induction s with
  | nil => rfl
  | cons c rest ih =>
    simp only [List.mem_cons] at h
    push_neg at h
    have h1 : ¬ c = ':' := fun hh => h.1 hh.symm
    simp [splitColon, h1, ih h.2]

theorem splitColon_append (s t : Str) (h : ':' ∉ s) :
    splitColon (s ++ ':' :: t) = s :: splitColon t := by
  induction s with
  | nil => simp [splitColon]
  | cons c rest ih =>
    simp only [List.mem_cons] at h
    push_neg at h
    have h1 : ¬ c = ':' := fun hh => h.1 hh.symm
    simp only [List.cons_append, splitColon, if_neg h1, List.append_eq]
    rw [ih h.2]

theorem joinSeg_cons (s : Str) (t : List Str) (h : t ≠ []) :
    joinSeg (s :: t) = s ++ ':' :: joinSeg t := by
  cases t with
  | nil => exact absurd rfl h
  | cons a b => rfl

theorem splitColon_joinSeg (p : List Str) (hne : p ≠ [])
    (h : ∀ s ∈ p, ':' ∉ s) : splitColon (joinSeg p) = p := by
  induction p with
  | nil => exact absurd rfl hne
  | cons s t ih =>
    cases t with
    | nil => exact splitColon_no_colon s (h s (List.mem_cons_self s []))
    | cons a b =>
      rw [joinSeg_cons s (a :: b) (by simp),
          splitColon_append s _ (h s (List.mem_cons_self s (a :: b))),
          ih (by simp) (fun x hx => h x (List.mem_cons_of_mem s hx))]

theorem goodPath_colon_free (p : List Str) (hp : goodPath p = true) :
    ∀ s ∈ p, ':' ∉ s := by
  intro s hs
  simp only [goodPath, Bool.and_eq_true, List.all_eq_true] at hp
  have h2 := hp.2 s hs
  simp only [goodSeg, Bool.and_eq_true, Bool.not_eq_true'] at h2
  intro hc
  have h3 := h2.2
  simp [hc] at h3

theorem goodPath_ne_nil (p : List Str) (hp : goodPath p = true) : p ≠ [] := by
  intro h
  subst h
  simp [goodPath] at hp

theorem newKey_inj (parent s1 s2 : Str) (h : newKey parent s1 = newKey parent s2) :
    s1 = s2 := by
  by_cases hp : parent = []
  · simpa [newKey, hp] using h
  · simp only [newKey, if_neg hp] at h
    exact List.tail_eq_of_cons_eq (List.append_cancel_left h)

theorem composite_inj (parent : Str) (p q : List Str)
    (hp : goodPath p = true) (hq : goodPath q = true)
    (h : newKey parent (joinSeg p) = newKey parent (joinSeg q)) : p = q := by
  have h2 := newKey_inj parent _ _ h
  rw [← splitColon_joinSeg p (goodPath_ne_nil p hp) (goodPath_colon_free p hp),
      ← splitColon_joinSeg q (goodPath_ne_nil q hq) (goodPath_colon_free q hq), h2]

theorem newKey_newKey (parent k s : Str) (hk : k ≠ []) :
    newKey (newKey parent k) s = newKey parent (k ++ ':' :: s) := by
  by_cases hp : parent = []
  · simp [newKey, hp, hk]
  · have hne : parent ++ ':' :: k ≠ [] := by simp
    have hne2 : k ++ ':' :: s ≠ [] := by
      cases k with
      | nil => exact absurd rfl hk
      | cons a b => simp
    simp [newKey, hp, hne, hne2]

theorem dunion_append (acc l : List (Str × Str))
    (hnd : (keysOf l).Nodup) (hfresh : ∀ k ∈ keysOf l, k ∉ keysOf acc) :
    dunion acc l = acc ++ l := by
  induction l generalizing acc with
  | nil => simp [dunion]
  | cons e l2 ih =>
    obtain ⟨k, v⟩ := e
    have h1 : dunion acc ((k, v) :: l2) = dunion (dassign acc k v) l2 := rfl
    rw [h1, dassign_of_not_mem acc k v (hfresh k (by simp))]
    rw [ih (acc ++ [(k, v)]) (List.nodup_cons.mp hnd).2]
    · simp
    · intro k2 hk2
      rw [keysOf_append]
      simp only [List.mem_append]
      push_neg
      refine ⟨hfresh k2 (by simp [hk2]), ?_⟩
      simp only [keysOf_cons, keysOf_nil]
      intro hc
      simp only [List.mem_singleton] at hc
      subst hc
      exact (List.nodup_cons.mp hnd).1 hk2

@[simp] theorem LDict.keys_nil : LDict.nil.keys = [] := rfl

@[simp] theorem LDict.keys_cons (k : Str) (v : LD) (rest : LDict) :
    (LDict.cons k v rest).keys = k :: rest.keys := rfl

@[simp] theorem leavesD_nil : leavesD .nil = [] := rfl

@[simp] theorem leavesD_cons (k : Str) (v : LD) (rest : LDict) :
    leavesD (.cons k v rest) = leavesV k v ++ leavesD rest := rfl

@[simp] theorem leavesV_leaf (k : Str) (s : Str) : leavesV k (.leaf s) = [([k], s)] := rfl

@[simp] theorem leavesV_node (k : Str) (sub : LDict) :
    leavesV k (.node sub) = (leavesD sub).map (fun e => (k :: e.1, e.2)) := rfl

@[simp] theorem LDict.append_nil_left (d : LDict) : LDict.nil.append d = d := rfl

@[simp] theorem LDict.append_cons (k : Str) (v : LD) (rest d : LDict) :
    (LDict.cons k v rest).append d = .cons k v (rest.append d) := rfl

theorem LDict.append_nil : ∀ (d : LDict), d.append .nil = d
  | .nil => rfl
  | .cons _ _ rest => by simp [LDict.append_nil rest]

theorem LDict.keys_append : ∀ (d1 d2 : LDict), (d1.append d2).keys = d1.keys ++ d2.keys
  | .nil, _ => rfl
  | .cons _ _ rest, d2 => by simp [LDict.keys_append rest d2]

theorem LDict.append_single : ∀ (a : LDict) (k : Str) (v : LD) (r : LDict),
    (a.append (.cons k v .nil)).append r = a.append (.cons k v r)
  | .nil, _, _, _ => rfl
  | .cons _ _ rest, k, v, r => by simp [LDict.append_single rest k v r]

theorem LDict.get?_eq_none : ∀ (d : LDict) (k : Str), d.get? k = none ↔ k ∉ d.keys
  | .nil, k => by simp [LDict.get?]
  | .cons k1 v1 rest, k => by
    by_cases h : k1 = k
    · subst h; simp [LDict.get?]
    · have h2 : ¬ k = k1 := fun hh => h hh.symm
      simp [LDict.get?, h, h2, LDict.get?_eq_none rest k]

theorem LDict.get?_assign_self : ∀ (d : LDict) (k : Str) (v : LD),
    (d.assign k v).get? k = some v
  | .nil, k, v => by simp [LDict.assign, LDict.get?]
  | .cons k1 v1 rest, k, v => by
    by_cases h : k1 = k <;>
      simp [LDict.assign, LDict.get?, h, LDict.get?_assign_self rest k v]

theorem LDict.assign_assign : ∀ (d : LDict) (k : Str) (v w : LD),
    (d.assign k v).assign k w = d.assign k w
  | .nil, k, v, w => by simp [LDict.assign]
  | .cons k1 v1 rest, k, v, w => by
    by_cases h : k1 = k <;> simp [LDict.assign, h, LDict.assign_assign rest k v w]

theorem LDict.assign_of_not_mem : ∀ (d : LDict) (k : Str) (v : LD), k ∉ d.keys →
    d.assign k v = d.append (.cons k v .nil)
  | .nil, _, _, _ => rfl
  | .cons k1 v1 rest, k, v, h => by
    simp only [LDict.keys_cons, List.mem_cons] at h
    push_neg at h
    have h1 : ¬ k1 = k := fun hh => h.1 hh.symm
    simp [LDict.assign, h1, LDict.assign_of_not_mem rest k v h.2]

theorem LDict.isEmpty_eq_false (d : LDict) : d.isEmpty = false ↔ d ≠ .nil := by
  cases d <;> simp [LDict.isEmpty]

theorem wfD_cons (k : Str) (v : LD) (rest : LDict) :
    wfD (.cons k v rest) = true ↔
      k ≠ [] ∧ ':' ∉ k ∧ k ∉ rest.keys ∧ wfV v = true ∧ wfD rest = true := by
  simp [wfD, Bool.and_eq_true, Bool.not_eq_true', List.isEmpty_iff, and_assoc]

theorem wfV_node (sub : LDict) :
    wfV (.node sub) = true ↔ sub ≠ .nil ∧ wfD sub = true := by
  simp [wfV, Bool.and_eq_true, Bool.not_eq_true', LDict.isEmpty_eq_false]

theorem goodPath_cons (k : Str) (p : List Str)
    (hk1 : k ≠ []) (hk2 : ':' ∉ k) (hp : p.all goodSeg = true) :
    goodPath (k :: p) = true := by
  simp only [goodPath, Bool.and_eq_true, List.all_cons, Bool.not_eq_true']
  refine ⟨by simp, ?_, hp⟩
  simp [goodSeg, List.isEmpty_iff, hk1, hk2]

theorem leaves_good : ∀ (d : LDict), wfD d = true →
    (∀ e ∈ leavesD d, goodPath e.1 = true ∧ e.1.headD [] ∈ d.keys) ∧
    ((leavesD d).map (fun e => e.1)).Nodup
  | .nil, _ => by simp
  | .cons k v rest, hwf => by
    obtain ⟨hk1, hk2, hk3, hwv, hwr⟩ := (wfD_cons k v rest).mp hwf
    obtain ⟨ihr1, ihr2⟩ := leaves_good rest hwr
    cases v with
    | leaf s =>
      refine ⟨?_, ?_⟩
      · intro e he
        simp only [leavesD_cons, leavesV_leaf, List.singleton_append, List.mem_cons] at he
        rcases he with rfl | he
        · exact ⟨goodPath_cons k [] hk1 hk2 rfl, by simp⟩
        · refine ⟨(ihr1 e he).1, ?_⟩
          simp only [LDict.keys_cons, List.mem_cons]
          right; exact (ihr1 e he).2
      · simp only [leavesD_cons, leavesV_leaf, List.singleton_append, List.map_cons,
          List.nodup_cons]
        refine ⟨?_, ihr2⟩
        intro hmem
        obtain ⟨e, he, hee⟩ := List.mem_map.mp hmem
        have := (ihr1 e he).2
        rw [hee] at this
        simp at this
        exact hk3 this
    | node sub =>
      obtain ⟨hsub0, hsub⟩ := (wfV_node sub).mp hwv
      obtain ⟨ihs1, ihs2⟩ := leaves_good sub hsub
      refine ⟨?_, ?_⟩
      · intro e he
        simp only [leavesD_cons, leavesV_node, List.mem_append, List.mem_map] at he
        rcases he with ⟨f, hf, rfl⟩ | he
        · refine ⟨?_, by simp⟩
          have hgf := (ihs1 f hf).1
          simp only [goodPath, Bool.and_eq_true] at hgf
          exact goodPath_cons k f.1 hk1 hk2 hgf.2
        · refine ⟨(ihr1 e he).1, ?_⟩
          simp only [LDict.keys_cons, List.mem_cons]
          right; exact (ihr1 e he).2
      · simp only [leavesD_cons, leavesV_node, List.map_append, List.map_map]
        rw [List.nodup_append]
        refine ⟨?_, ihr2, ?_⟩
        · have : ((leavesD sub).map (fun e => (k :: e.1, e.2))).map (fun e => e.1)
              = ((leavesD sub).map (fun e => e.1)).map (fun p => k :: p) := by
            simp [List.map_map]
          have h2 : Function.Injective (fun p : List Str => k :: p) := by
            intro a b hab
            simpa using hab
          simpa using ihs2.map h2
        · intro a ha hb
          simp only [List.map_map, List.mem_map, Function.comp] at ha
          obtain ⟨f, hf, rfl⟩ := ha
          obtain ⟨g, hg, hgg⟩ := List.mem_map.mp hb
          have := (ihr1 g hg).2
          rw [hgg] at this
          simp at this
          exact hk3 this

theorem leaves_head_cons (d : LDict) (hwf : wfD d = true) (k : Str) (p : List Str)
    (s : Str) (h : (k :: p, s) ∈ leavesD d) : k ∈ d.keys := by
  have := ((leaves_good d hwf).1 _ h).2
  simpa using this

theorem flatten_go_eq : ∀ (d : LDict) (parent : Str) (acc : List (Str × Str)),
    wfD d = true →
    (∀ e ∈ leavesD d, newKey parent (joinSeg e.1) ∉ keysOf acc) →
    flatten_go d parent acc
      = acc ++ (leavesD d).map (fun e => (newKey parent (joinSeg e.1), e.2))
  | .nil, parent, acc, _, _ => by simp [flatten_go]
  | .cons k v rest, parent, acc, hwf, hfresh => by
    obtain ⟨hk1, hk2, hk3, hwv, hwr⟩ := (wfD_cons k v rest).mp hwf
    have hgk : goodPath [k] = true := goodPath_cons k [] hk1 hk2 rfl
    cases v with
    | leaf s =>
      have hfresh0 : newKey parent k ∉ keysOf acc := by
        have := hfresh ([k], s) (by simp)
        simpa using this
      have hstep : flatten_go (.cons k (.leaf s) rest) parent acc
          = flatten_go rest parent (dassign acc (newKey parent k) s) := rfl
      rw [hstep, dassign_of_not_mem acc _ s hfresh0,
          flatten_go_eq rest parent (acc ++ [(newKey parent k, s)]) hwr ?_]
      · simp [show joinSeg [k] = k from rfl]
      · intro e he
        rw [keysOf_append]
        simp only [List.mem_append, keysOf_cons, keysOf_nil, List.mem_singleton]
        push_neg
        refine ⟨hfresh e (by simp [he]), ?_⟩
        intro hceq
        have hge : goodPath e.1 = true := ((leaves_good rest hwr).1 e he).1
        have hpe : e.1 = [k] := composite_inj parent e.1 [k] hge hgk hceq
        have hh := ((leaves_good rest hwr).1 e he).2
        rw [hpe] at hh
        simp at hh
        exact hk3 hh
    | node sub =>
      obtain ⟨hsub0, hsub⟩ := (wfV_node sub).mp hwv
      have hsubeq : flatten_go sub (newKey parent k) []
          = (leavesD sub).map (fun e => (newKey (newKey parent k) (joinSeg e.1), e.2)) := by
        simpa using flatten_go_eq sub (newKey parent k) [] hsub (by simp)
      have hpaths : ∀ e ∈ leavesD sub, goodPath e.1 = true :=
        fun e he => ((leaves_good sub hsub).1 e he).1
      have hmap : (leavesD sub).map (fun e => (newKey (newKey parent k) (joinSeg e.1), e.2))
          = (leavesD sub).map (fun e => (newKey parent (joinSeg (k :: e.1)), e.2)) := by
        apply List.map_congr_left
        intro e he
        rw [joinSeg_cons k e.1 (goodPath_ne_nil e.1 (hpaths e he)),
            newKey_newKey parent k (joinSeg e.1) hk1]
      have hgood_cons : ∀ e ∈ leavesD sub, goodPath (k :: e.1) = true := by
        intro e he
        have := hpaths e he
        simp only [goodPath, Bool.and_eq_true] at this
        exact goodPath_cons k e.1 hk1 hk2 this.2
      have hLnodup : ((leavesD sub).map
          (fun e => (newKey parent (joinSeg (k :: e.1)), e.2)) |> keysOf).Nodup := by
        have h1 : keysOf ((leavesD sub).map
            (fun e => (newKey parent (joinSeg (k :: e.1)), e.2)))
            = ((leavesD sub).map (fun e => e.1)).map
                (fun p => newKey parent (joinSeg (k :: p))) := by
          simp [keysOf, List.map_map]
        rw [h1]
        apply List.Nodup.map_on ?_ (leaves_good sub hsub).2
        intro p hp q hq hpq
        obtain ⟨ep, hep, rfl⟩ := List.mem_map.mp hp
        obtain ⟨eq, heq, rfl⟩ := List.mem_map.mp hq
        have := composite_inj parent _ _ (hgood_cons ep hep) (hgood_cons eq heq) hpq
        exact List.tail_eq_of_cons_eq this
      have hLfresh : ∀ k2 ∈ keysOf ((leavesD sub).map
          (fun e => (newKey parent (joinSeg (k :: e.1)), e.2))), k2 ∉ keysOf acc := by
        intro k2 hk2m
        simp only [keysOf, List.map_map, List.mem_map, Function.comp] at hk2m
        obtain ⟨e, he, rfl⟩ := hk2m
        refine hfresh (k :: e.1, e.2) ?_
        simp only [leavesD_cons, leavesV_node, List.mem_append, List.mem_map]
        exact Or.inl ⟨e, he, rfl⟩
      have hstep : flatten_go (.cons k (.node sub) rest) parent acc
          = flatten_go rest parent (dunion acc (flatten_go sub (newKey parent k) [])) := rfl
      rw [hstep, hsubeq, hmap,
          dunion_append acc _ hLnodup hLfresh,
          flatten_go_eq rest parent _ hwr ?_]
      · simp [List.map_map, Function.comp]
      · intro e he
        rw [keysOf_append]
        simp only [List.mem_append]
        push_neg
        refine ⟨hfresh e (by simp [he]), ?_⟩
        simp only [keysOf, List.map_map, List.mem_map, Function.comp]
        rintro ⟨f, hf, hceq⟩
        have hge : goodPath e.1 = true := ((leaves_good rest hwr).1 e he).1
        have hpe : k :: f.1 = e.1 := composite_inj parent _ _ (hgood_cons f hf) hge hceq
        have hh := ((leaves_good rest hwr).1 e he).2
        rw [← hpe] at hh
        simp at hh
        exact hk3 hh

/-- The entries of `flatten_json d` for a well-formed document are exactly
the leaves of `d` in preorder, keyed by their `':'`-joined paths. -/
theorem flatten_json_eq (d : LDict) (hwf : wfD d = true) :
    flatten_json d = (leavesD d).map (fun e => (joinSeg e.1, e.2)) := by
  have h := flatten_go_eq d [] [] hwf (by simp)
  rw [flatten_json, h]
  simp [newKey]

@[simp] theorem insertPaths_nil (acc : LDict) : insertPaths acc [] = some acc := rfl

theorem insertPaths_cons (acc : LDict) (e : List Str × Str) (l : List (List Str × Str)) :
    insertPaths acc (e :: l) = (setPath acc e.1 e.2).bind (fun a => insertPaths a l) := by
  cases h : setPath acc e.1 e.2 <;> simp [insertPaths, List.foldlM, h]

theorem insertPaths_append (acc : LDict) (l1 l2 : List (List Str × Str)) :
    insertPaths acc (l1 ++ l2) = (insertPaths acc l1).bind (fun a => insertPaths a l2) := by
  induction l1 generalizing acc with
  | nil => simp
  | cons e l ih =>
    rw [List.cons_append, insertPaths_cons, insertPaths_cons]
    cases h : setPath acc e.1 e.2 with
    | none => simp
    | some a => simp [ih a]

theorem unflatten_eq_insertPaths (flat : List (Str × Str)) :
    unflatten_json flat = insertPaths .nil (flat.map (fun e => (splitColon e.1, e.2))) := by
  rw [unflatten_json]
  generalize LDict.nil = acc
  induction flat generalizing acc with
  | nil => rfl
  | cons e l ih =>
    rw [List.map_cons, insertPaths_cons, List.foldlM]
    cases h : setPath acc (splitColon e.1) e.2 with
    | none => simp [h]
    | some a => simp [h, ih a]

theorem setPath_single (d : LDict) (k : Str) (v : Str) :
    setPath d [k] v = some (d.assign k (LD.leaf v)) := rfl

theorem setPath_fresh (d : LDict) (k : Str) (p : List Str) (v : Str)
    (hget : d.get? k = none) (hp : p ≠ []) :
    setPath d (k :: p) v = (setPath .nil p v).map (fun sub => d.assign k (LD.node sub)) := by
  cases p with
  | nil => exact absurd rfl hp
  | cons p1 ps => simp [setPath, hget]

theorem setPath_node (d : LDict) (k : Str) (p : List Str) (v : Str) (t : LDict)
    (hget : d.get? k = some (LD.node t)) (hp : p ≠ []) :
    setPath d (k :: p) v = (setPath t p v).map (fun s => d.assign k (LD.node s)) := by
  cases p with
  | nil => exact absurd rfl hp
  | cons p1 ps => simp [setPath, hget]

theorem LDict.assign_eq_of_get? : ∀ (d : LDict) (k : Str) (v : LD),
    d.get? k = some v → d.assign k v = d
  | .nil, k, v, h => by simp [LDict.get?] at h
  | .cons k1 v1 rest, k, v, h => by
    by_cases h1 : k1 = k
    · subst h1
      simp only [LDict.get?, if_pos rfl] at h
      simp [LDict.assign, Option.some.inj h]
    · simp only [LDict.get?, if_neg h1] at h
      simp [LDict.assign, h1, LDict.assign_eq_of_get? rest k v h]

theorem insertPaths_under : ∀ (L : List (List Str × Str)) (acc : LDict) (k : Str) (t : LDict),
    (∀ e ∈ L, e.1 ≠ []) → acc.get? k = some (LD.node t) →
    insertPaths acc (L.map (fun e => (k :: e.1, e.2)))
      = (insertPaths t L).map (fun t2 => acc.assign k (LD.node t2))
  | [], acc, k, t, _, hget => by
    simp [LDict.assign_eq_of_get? acc k (LD.node t) hget]
  | e :: L2, acc, k, t, hps, hget => by
    rw [List.map_cons, insertPaths_cons, insertPaths_cons]
    rw [setPath_node acc k e.1 e.2 t hget (hps e (by simp))]
    cases hs : setPath t e.1 e.2 with
    | none => simp
    | some t2 =>
      simp only [Option.map_some', Option.some_bind]
      rw [insertPaths_under L2 (acc.assign k (LD.node t2)) k t2
            (fun f hf => hps f (by simp [hf])) (LDict.get?_assign_self acc k (LD.node t2))]
      cases hr : insertPaths t2 L2 with
      | none => simp
      | some t3 => simp [LDict.assign_assign]

theorem leavesD_ne_nil : ∀ (d : LDict), wfD d = true → d ≠ .nil → leavesD d ≠ []
  | .nil, _, h => absurd rfl h
  | .cons k v rest, hwf, _ => by
    obtain ⟨_, _, _, hwv, _⟩ := (wfD_cons k v rest).mp hwf
    cases v with
    | leaf s => simp
    | node sub =>
      obtain ⟨hsub0, hsub⟩ := (wfV_node sub).mp hwv
      have := leavesD_ne_nil sub hsub hsub0
      simp only [leavesD_cons, leavesV_node]
      intro hc
      rcases List.append_eq_nil.mp hc with ⟨h1, _⟩
      exact this (List.map_eq_nil_iff.mp h1)

theorem insert_leaves : ∀ (d : LDict) (acc : LDict), wfD d = true →
    (∀ k ∈ d.keys, k ∉ acc.keys) →
    insertPaths acc (leavesD d) = some (acc.append d)
  | .nil, acc, _, _ => by simp [LDict.append_nil]
  | .cons k v rest, acc, hwf, hdisj => by
    obtain ⟨hk1, hk2, hk3, hwv, hwr⟩ := (wfD_cons k v rest).mp hwf
    have hkacc : k ∉ acc.keys := hdisj k (by simp)
    have hdisj2 : ∀ (x : LD), ∀ k2 ∈ rest.keys,
        k2 ∉ (acc.append (.cons k x .nil)).keys := by
      intro x k2 hk2m
      rw [LDict.keys_append]
      simp only [List.mem_append, LDict.keys_cons, LDict.keys_nil, List.mem_singleton]
      push_neg
      exact ⟨hdisj k2 (by simp [hk2m]), fun hc => hk3 (hc ▸ hk2m)⟩
    rw [leavesD_cons, insertPaths_append]
    cases v with
    | leaf s =>
      rw [show leavesV k (.leaf s) = [([k], s)] from rfl]
      rw [insertPaths_cons, setPath_single,
          LDict.assign_of_not_mem acc k (LD.leaf s) hkacc]
      simp only [Option.some_bind, insertPaths_nil]
      rw [insert_leaves rest _ hwr (hdisj2 (LD.leaf s)), LDict.append_single]
    | node sub =>
      obtain ⟨hsub0, hsub⟩ := (wfV_node sub).mp hwv
      have hsubleaves := insert_leaves sub .nil hsub (by simp)
      rw [show LDict.nil.append sub = sub from rfl] at hsubleaves
      cases hls : leavesD sub with
      | nil => exact absurd hls (leavesD_ne_nil sub hsub hsub0)
      | cons f L2 =>
        have hfmem : f ∈ leavesD sub := by rw [hls]; simp
        have hgoodf : goodPath f.1 = true := ((leaves_good sub hsub).1 f hfmem).1
        have hf1 : f.1 ≠ [] := goodPath_ne_nil f.1 hgoodf
        rw [hls, insertPaths_cons] at hsubleaves
        cases hsf : setPath .nil f.1 f.2 with
        | none => rw [hsf] at hsubleaves; simp at hsubleaves
        | some t1 =>
          rw [hsf] at hsubleaves
          rw [show ((some t1).bind (fun a => insertPaths a L2)) = insertPaths t1 L2
              from rfl] at hsubleaves
          rw [show leavesV k (.node sub) = (leavesD sub).map (fun e => (k :: e.1, e.2))
              from rfl, hls, List.map_cons, insertPaths_cons]
          rw [setPath_fresh acc k f.1 f.2 ((LDict.get?_eq_none acc k).mpr hkacc) hf1, hsf]
          simp only [Option.map_some', Option.some_bind]
          have hL2paths : ∀ e ∈ L2, e.1 ≠ [] := by
            intro e he
            have hm : e ∈ leavesD sub := by rw [hls]; simp [he]
            exact goodPath_ne_nil e.1 ((leaves_good sub hsub).1 e hm).1
          rw [insertPaths_under L2 _ k t1 hL2paths (LDict.get?_assign_self acc k _),
              hsubleaves]
          simp only [Option.map_some', Option.some_bind]
          rw [LDict.assign_assign, LDict.assign_of_not_mem acc k (LD.node sub) hkacc]
          rw [insert_leaves rest _ hwr (hdisj2 (LD.node sub)), LDict.append_single]

/-- C1 counterexample: the document `{"a": {}}` has no key containing the
separator, yet `flatten_json` drops the empty branch entirely, so the
round-trip returns the empty document, not the original one. -/
theorem c1_counterexample :
    colonFreeD (ofL [("a".data, LD.node .nil)]) = true ∧
    unflatten_json (flatten_json (ofL [("a".data, LD.node .nil)])) = some .nil ∧
    LDict.nil ≠ ofL [("a".data, LD.node .nil)] :=
  ⟨rfl, rfl, fun h => LDict.noConfusion h⟩

/-- C1 amended: the round-trip law `unflatten_json (flatten_json d) = d`
holds for every locale document whose keys are nonempty, contain no
separator `':'` and are distinct within each mapping, and in which every
branch mapping is nonempty (empty branch mappings are dropped by
`flatten_json`, see the counterexample; a top-level empty key likewise
breaks the law because `parent_key = ""` is falsy in `new_key`). -/
theorem c1_roundtrip (d : LDict) (hwf : wfD d = true) :
    unflatten_json (flatten_json d) = some d := by
  rw [flatten_json_eq d hwf, unflatten_eq_insertPaths, List.map_map]
  have hcongr : ∀ e ∈ leavesD d,
      ((fun e => (splitColon e.1, e.2)) ∘ (fun e => (joinSeg e.1, e.2)))
        (e : List Str × Str) = id e := by
    intro e he
    have hg := ((leaves_good d hwf).1 e he).1
    simp only [Function.comp, id]
    rw [splitColon_joinSeg e.1 (goodPath_ne_nil _ hg) (goodPath_colon_free _ hg)]
  rw [List.map_congr_left hcongr, List.map_id]
  have h := insert_leaves d .nil hwf (by simp)
  rw [show LDict.nil.append d = d from rfl] at h
  exact h

/-- Witness for C1's amended theorem on a concrete two-level document. -/
theorem c1_witness :
    unflatten_json (flatten_json (ofL [("a".data, LD.node (ofL
        [("b".data, LD.leaf "x".data), ("c".data, LD.leaf "y".data)])),
      ("d".data, LD.leaf "z".data)]))
    = some (ofL [("a".data, LD.node (ofL
        [("b".data, LD.leaf "x".data), ("c".data, LD.leaf "y".data)])),
      ("d".data, LD.leaf "z".data)]) :=
  c1_roundtrip _ (by decide)

/-! ### Claim C7: order-independence of `unflatten_json` -/

/-- Induction over the entry list of a dict alone (the values are not
traversed), usable by the `induction` tactic. -/
@[induction_eliminator]
theorem LDict.inductionOn {motive : LDict → Prop} (nil : motive .nil)
    (cons : ∀ (k : Str) (v : LD) (rest : LDict), motive rest → motive (.cons k v rest)) :
    ∀ d, motive d
  | .nil => nil
  | .cons k v rest => cons k v rest (LDict.inductionOn nil cons rest)

theorem leStr_refl (s : Str) : leStr s s = true := by
  induction s with
  | nil => rfl
  | cons a t ih => simp [leStr, ih]

theorem leStr_total (s t : Str) : leStr s t = true ∨ leStr t s = true := by
  induction s generalizing t with
  | nil => left; rfl
  | cons a s2 ih =>
    cases t with
    | nil => right; rfl
    | cons b t2 =>
      by_cases hab : a = b
      · subst hab
        rcases ih t2 with h | h
        · left; simpa [leStr] using h
        · right; simpa [leStr] using h
      · have hba : ¬ b = a := fun hh => hab hh.symm
        rcases lt_or_gt_of_ne hab with h | h
        · left; simp [leStr, hab, h]
        · right; simp [leStr, hba, h]

theorem leStr_antisymm (s t : Str) (h1 : leStr s t = true) (h2 : leStr t s = true) :
    s = t := by
  induction s generalizing t with
  | nil =>
    cases t with
    | nil => rfl
    | cons b t2 => simp [leStr] at h2
  | cons a s2 ih =>
    cases t with
    | nil => simp [leStr] at h1
    | cons b t2 =>
      by_cases hab : a = b
      · subst hab
        simp only [leStr, if_pos rfl] at h1 h2
        rw [ih t2 h1 h2]
      · have hba : ¬ b = a := fun hh => hab hh.symm
        simp only [leStr, if_neg hab, decide_eq_true_eq] at h1
        simp only [leStr, if_neg hba, decide_eq_true_eq] at h2
        exact absurd h2 (lt_asymm h1)

theorem leStr_trans (s t u : Str) (h1 : leStr s t = true) (h2 : leStr t u = true) :
    leStr s u = true := by
  induction s generalizing t u with
  | nil => rfl
  | cons a s2 ih =>
    cases t with
    | nil => simp [leStr] at h1
    | cons b t2 =>
      cases u with
      | nil => simp [leStr] at h2
      | cons c u2 =>
        by_cases hab : a = b <;> by_cases hbc : b = c
        · subst hab; subst hbc
          simp only [leStr, if_pos rfl] at h1 h2 ⊢
          exact ih t2 u2 h1 h2
        · subst hab
          simp only [leStr, if_pos rfl] at h1
          simp only [leStr, if_neg hbc, decide_eq_true_eq] at h2
          have hac : ¬ a = c := hbc
          simp [leStr, hac, h2]
        · subst hbc
          simp only [leStr, if_neg hab, decide_eq_true_eq] at h1
          simp [leStr, hab, h1]
        · simp only [leStr, if_neg hab, decide_eq_true_eq] at h1
          simp only [leStr, if_neg hbc, decide_eq_true_eq] at h2
          have hac2 : a < c := lt_trans h1 h2
          have hac : ¬ a = c := ne_of_lt hac2
          simp [leStr, hac, hac2]

theorem LDict.get?_assign_ne : ∀ (d : LDict) (k key : Str) (v : LD), key ≠ k →
    (d.assign k v).get? key = d.get? key
  | .nil, k, key, v, h => by
    have h2 : ¬ k = key := fun hh => h hh.symm
    simp [LDict.assign, LDict.get?, h2]
  | .cons k1 v1 rest, k, key, v, h => by
    have h2 : ¬ k = key := fun hh => h hh.symm
    by_cases h1 : k1 = k
    · subst h1; simp [LDict.assign, LDict.get?, h2]
    · by_cases h3 : k1 = key <;>
        simp [LDict.assign, LDict.get?, h, h1, h2, h3, LDict.get?_assign_ne rest k key v h]

theorem get?_insort_self (s : LDict) (k : Str) (v : LD) :
    (insortEntry k v s).get? k = some v := by
  induction s with
  | nil => simp [insortEntry, LDict.get?]
  | cons k2 v2 rest ih =>
    by_cases hle : leStr k k2 = true
    · simp [insortEntry, hle, LDict.get?]
    · have hne : ¬ k2 = k := by
        intro hh
        subst hh
        exact hle (leStr_refl k2)
      simp [insortEntry, hle, LDict.get?, hne, ih]

theorem get?_insort_ne (s : LDict) (k key : Str) (v : LD) (h : key ≠ k) :
    (insortEntry k v s).get? key = s.get? key := by
  have h2 : ¬ k = key := fun hh => h hh.symm
  induction s with
  | nil => simp [insortEntry, LDict.get?, h2]
  | cons k2 v2 rest ih =>
    by_cases hle : leStr k k2 = true
    · simp [insortEntry, hle, LDict.get?, h2]
    · by_cases h3 : k2 = key
      · subst h3
        simp [insortEntry, hle, LDict.get?]
      · simp [insortEntry, hle, LDict.get?, h3, ih]

theorem assign_insort_self (s : LDict) (k : Str) (a b : LD) :
    (insortEntry k a s).assign k b = insortEntry k b s := by
  induction s with
  | nil => simp [insortEntry, LDict.assign]
  | cons k2 v2 rest ih =>
    by_cases hle : leStr k k2 = true
    · simp [insortEntry, hle, LDict.assign]
    · have hne : ¬ k2 = k := by
        intro hh
        subst hh
        exact hle (leStr_refl k2)
      simp [insortEntry, hle, LDict.assign, hne, ih]

theorem assign_insort_ne (s : LDict) (k0 k : Str) (a b : LD)
    (hne : k ≠ k0) (hmem : k ∈ s.keys) :
    (insortEntry k0 a s).assign k b = insortEntry k0 a (s.assign k b) := by
  have hne2 : ¬ k0 = k := fun hh => hne hh.symm
  induction s with
  | nil => simp at hmem
  | cons k2 v2 rest ih =>
    simp only [LDict.keys_cons, List.mem_cons] at hmem
    by_cases hle : leStr k0 k2 = true
    · by_cases h2 : k2 = k
      · subst h2
        simp [insortEntry, hle, LDict.assign, hne2]
      · rcases hmem with hmem | hmem
        · exact absurd hmem.symm h2
        · have hle2 : leStr k0 k2 = true := hle
          simp only [LDict.assign, if_neg h2]
          simp only [insortEntry, if_pos hle, LDict.assign, if_neg hne2, if_neg h2]
    · by_cases h2 : k2 = k
      · subst h2
        simp [insortEntry, hle, LDict.assign, hne2]
      · rcases hmem with hmem | hmem
        · exact absurd hmem.symm h2
        · simp [insortEntry, hle, LDict.assign, h2, ih hmem]

theorem insort_insort (s : LDict) (j k : Str) (a b : LD) (hjk : j ≠ k) :
    insortEntry j a (insortEntry k b s) = insortEntry k b (insortEntry j a s) := by
  induction s with
  | nil =>
    by_cases h1 : leStr j k = true
    · have h2 : leStr k j = false := by
        cases hkj : leStr k j
        · rfl
        · exact absurd (leStr_antisymm j k h1 hkj) hjk
      simp [insortEntry, h1, h2]
    · have h2 : leStr k j = true := by
        rcases leStr_total j k with h | h
        · exact absurd h h1
        · exact h
      simp [insortEntry, h1, h2]
  | cons kf vf fs ih =>
    by_cases hkf : leStr k kf = true <;> by_cases hjf : leStr j kf = true
    · -- both insert before f
      by_cases hjk2 : leStr j k = true
      · have hkj : leStr k j = false := by
          cases hkj : leStr k j
          · rfl
          · exact absurd (leStr_antisymm j k hjk2 hkj) hjk
        simp [insortEntry, hkf, hjf, hjk2, hkj]
      · have hkj : leStr k j = true := by
          rcases leStr_total j k with h | h
          · exact absurd h hjk2
          · exact h
        simp [insortEntry, hkf, hjf, hjk2, hkj]
    · -- k before f, j after f
      have hjk2 : leStr j k = false := by
        cases hh : leStr j k
        · rfl
        · exact absurd (leStr_trans j k kf hh hkf) hjf
      simp [insortEntry, hkf, hjf, hjk2]
    · -- j before f, k after f
      have hkj : leStr k j = false := by
        cases hh : leStr k j
        · rfl
        · exact absurd (leStr_trans k j kf hh hjf) hkf
      simp [insortEntry, hkf, hjf, hkj]
    · -- both after f
      simp [insortEntry, hkf, hjf, ih]

theorem assign_comm (s : LDict) (a b : Str) (x y : LD)
    (hab : a ≠ b) (hmem : a ∈ s.keys) :
    (s.assign a x).assign b y = (s.assign b y).assign a x := by
  have hba : ¬ b = a := fun hh => hab hh.symm
  induction s with
  | nil => simp at hmem
  | cons kf vf fs ih =>
    simp only [LDict.keys_cons, List.mem_cons] at hmem
    by_cases h1 : kf = a
    · subst h1
      simp [LDict.assign, hab, hba]
    · rcases hmem with hmem | hmem
      · exact absurd hmem.symm h1
      · by_cases h2 : kf = b
        · subst h2
          simp [LDict.assign, h1, hba]
        · simp [LDict.assign, h1, h2, ih hmem]

@[simp] theorem sortDict_nil : sortDict .nil = .nil := rfl

@[simp] theorem sortDict_cons (k : Str) (v : LD) (rest : LDict) :
    sortDict (.cons k v rest) = insortEntry k (sort_nested_json v) (sortDict rest) := rfl

theorem get?_sortDict : ∀ (d : LDict) (k : Str),
    (sortDict d).get? k = (d.get? k).map sort_nested_json
  | .nil, _ => rfl
  | .cons k1 v1 rest, k => by
    by_cases h : k1 = k
    · subst h
      rw [sortDict_cons, get?_insort_self]
      simp [LDict.get?]
    · rw [sortDict_cons, get?_insort_ne _ _ _ _ (fun hh => h hh.symm),
          get?_sortDict rest k]
      simp [LDict.get?, h]

theorem mem_keys_sortDict (d : LDict) (k : Str) :
    k ∈ (sortDict d).keys ↔ k ∈ d.keys := by
  rw [← not_iff_not, ← LDict.get?_eq_none, ← LDict.get?_eq_none, get?_sortDict]
  cases d.get? k <;> simp

theorem mem_keys_assign_ne (d : LDict) (k key : Str) (v : LD) (h : key ≠ k) :
    key ∈ (d.assign k v).keys ↔ key ∈ d.keys := by
  rw [← not_iff_not, ← LDict.get?_eq_none, ← LDict.get?_eq_none,
      LDict.get?_assign_ne d k key v h]

theorem sortDict_assign_fresh : ∀ (d : LDict) (k : Str) (x : LD), k ∉ d.keys →
    sortDict (d.assign k x) = insortEntry k (sort_nested_json x) (sortDict d)
  | .nil, _, _, _ => rfl
  | .cons k1 v1 rest, k, x, h => by
    simp only [LDict.keys_cons, List.mem_cons] at h
    push_neg at h
    have h1 : ¬ k1 = k := fun hh => h.1 hh.symm
    rw [show (LDict.cons k1 v1 rest).assign k x = .cons k1 v1 (rest.assign k x) from by
        simp [LDict.assign, h1]]
    rw [sortDict_cons, sortDict_cons, sortDict_assign_fresh rest k x h.2,
        insort_insort _ k1 k _ _ h1]

theorem sortDict_assign_mem : ∀ (d : LDict) (k : Str) (x : LD), k ∈ d.keys →
    sortDict (d.assign k x) = (sortDict d).assign k (sort_nested_json x)
  | .nil, k, x, h => by simp at h
  | .cons k1 v1 rest, k, x, h => by
    by_cases h1 : k1 = k
    · subst h1
      rw [show (LDict.cons k1 v1 rest).assign k1 x = .cons k1 x rest from by
          simp [LDict.assign]]
      rw [sortDict_cons, sortDict_cons, assign_insort_self]
    · have hmem : k ∈ rest.keys := by
        simp only [LDict.keys_cons, List.mem_cons] at h
        rcases h with h | h
        · exact absurd h.symm h1
        · exact h
      rw [show (LDict.cons k1 v1 rest).assign k x = .cons k1 v1 (rest.assign k x) from by
          simp [LDict.assign, h1]]
      rw [sortDict_cons, sortDict_cons, sortDict_assign_mem rest k x hmem,
          assign_insort_ne (sortDict rest) k1 k _ _ (fun hh => h1 hh.symm)
            ((mem_keys_sortDict rest k).mpr hmem)]

theorem sortDict_assign2_comm (D : LDict) (a b : Str) (x y : LD) (hab : a ≠ b) :
    sortDict ((D.assign a x).assign b y) = sortDict ((D.assign b y).assign a x) := by
  have hba : b ≠ a := fun hh => hab hh.symm
  by_cases ha : a ∈ D.keys <;> by_cases hb : b ∈ D.keys
  · rw [sortDict_assign_mem _ b y ((mem_keys_assign_ne D a b x hba).mpr hb),
        sortDict_assign_mem _ a x ha,
        sortDict_assign_mem _ a x ((mem_keys_assign_ne D b a y hab).mpr ha),
        sortDict_assign_mem _ b y hb]
    exact assign_comm (sortDict D) a b _ _ hab ((mem_keys_sortDict D a).mpr ha)
  · rw [sortDict_assign_fresh _ b y (fun hc => hb ((mem_keys_assign_ne D a b x hba).mp hc)),
        sortDict_assign_mem _ a x ha,
        sortDict_assign_mem _ a x ((mem_keys_assign_ne D b a y hab).mpr ha),
        sortDict_assign_fresh _ b y hb]
    rw [assign_insort_ne (sortDict D) b a _ _ hab ((mem_keys_sortDict D a).mpr ha)]
  · rw [sortDict_assign_mem _ b y ((mem_keys_assign_ne D a b x hba).mpr hb),
        sortDict_assign_fresh _ a x ha,
        sortDict_assign_fresh _ a x (fun hc => ha ((mem_keys_assign_ne D b a y hab).mp hc)),
        sortDict_assign_mem _ b y hb]
    rw [assign_insort_ne (sortDict D) a b _ _ hba ((mem_keys_sortDict D b).mpr hb)]
  · rw [sortDict_assign_fresh _ b y (fun hc => hb ((mem_keys_assign_ne D a b x hba).mp hc)),
        sortDict_assign_fresh _ a x ha,
        sortDict_assign_fresh _ a x (fun hc => ha ((mem_keys_assign_ne D b a y hab).mp hc)),
        sortDict_assign_fresh _ b y hb]
    exact insort_insort (sortDict D) b a _ _ hba

@[simp] theorem sort_nested_json_leaf (s : Str) :
    sort_nested_json (.leaf s) = .leaf s := rfl

@[simp] theorem sort_nested_json_node (d : LDict) :
    sort_nested_json (.node d) = .node (sortDict d) := rfl

theorem LDict.mem_of_get? (d : LDict) (k : Str) (v : LD) (h : d.get? k = some v) :
    k ∈ d.keys := by
  by_contra hn
  rw [(LDict.get?_eq_none d k).mpr hn] at h
  cases h

theorem setPath_eq_entryStep (D : LDict) (a : Str) (p2 : List Str) (v : Str) :
    setPath D (a :: p2) v = (entryStep (D.get? a) p2 v).map (fun x => D.assign a x) := by
  cases p2 with
  | nil => rfl
  | cons p ps =>
    cases hget : D.get? a with
    | none =>
      simp only [setPath, hget, entryStep, Option.map_map]
      rfl
    | some x =>
      cases x with
      | leaf s => simp [setPath, hget, entryStep]
      | node t =>
        simp only [setPath, hget, entryStep, Option.map_map]
        rfl

theorem mem_keys_of_sort_eq (D1 D2 : LDict) (k : Str) (hs : sortDict D1 = sortDict D2) :
    k ∈ D1.keys ↔ k ∈ D2.keys := by
  rw [← mem_keys_sortDict D1 k, ← mem_keys_sortDict D2 k, hs]

theorem setPath_sort_congr : ∀ (p : List Str) (D1 D2 : LDict) (v : Str),
    sortDict D1 = sortDict D2 →
    Option.map sortDict (setPath D1 p v) = Option.map sortDict (setPath D2 p v)
  | [], _, _, _, _ => rfl
  | [last], D1, D2, v, hs => by
    rw [setPath_single, setPath_single]
    simp only [Option.map_some']
    congr 1
    by_cases hm : last ∈ D1.keys
    · have hm2 : last ∈ D2.keys := (mem_keys_of_sort_eq D1 D2 last hs).mp hm
      rw [sortDict_assign_mem _ _ _ hm, sortDict_assign_mem _ _ _ hm2, hs]
    · have hm2 : last ∉ D2.keys := fun hc => hm ((mem_keys_of_sort_eq D1 D2 last hs).mpr hc)
      rw [sortDict_assign_fresh _ _ _ hm, sortDict_assign_fresh _ _ _ hm2, hs]
  | part :: p2 :: ps, D1, D2, v, hs => by
    have hget : (D1.get? part).map sort_nested_json
        = (D2.get? part).map sort_nested_json := by
      rw [← get?_sortDict, ← get?_sortDict, hs]
    cases h1 : D1.get? part with
    | none =>
      cases h2 : D2.get? part with
      | none =>
        rw [setPath_fresh D1 part (p2 :: ps) v h1 (by simp),
            setPath_fresh D2 part (p2 :: ps) v h2 (by simp)]
        cases hsp : setPath .nil (p2 :: ps) v with
        | none => rfl
        | some sub =>
          simp only [Option.map_some']
          congr 1
          rw [sortDict_assign_fresh _ _ _ ((LDict.get?_eq_none D1 part).mp h1),
              sortDict_assign_fresh _ _ _ ((LDict.get?_eq_none D2 part).mp h2), hs]
      | some x2 => rw [h1, h2] at hget; simp at hget
    | some x1 =>
      cases h2 : D2.get? part with
      | none => rw [h1, h2] at hget; simp at hget
      | some x2 =>
        rw [h1, h2] at hget
        simp only [Option.map_some'] at hget
        have hget2 := Option.some.inj hget
        cases x1 with
        | leaf s1 =>
          cases x2 with
          | leaf s2 =>
            rw [show setPath D1 (part :: p2 :: ps) v = none from by simp [setPath, h1],
                show setPath D2 (part :: p2 :: ps) v = none from by simp [setPath, h2]]
          | node t2 => simp at hget2
        | node t1 =>
          cases x2 with
          | leaf s2 => simp at hget2
          | node t2 =>
            have hst : sortDict t1 = sortDict t2 := by
              simpa using hget2
            rw [setPath_node D1 part _ v t1 h1 (by simp),
                setPath_node D2 part _ v t2 h2 (by simp)]
            have hrec := setPath_sort_congr (p2 :: ps) t1 t2 v hst
            cases hr1 : setPath t1 (p2 :: ps) v with
            | none =>
              cases hr2 : setPath t2 (p2 :: ps) v with
              | none => rfl
              | some s2 => rw [hr1, hr2] at hrec; simp at hrec
            | some s1 =>
              cases hr2 : setPath t2 (p2 :: ps) v with
              | none => rw [hr1, hr2] at hrec; simp at hrec
              | some s2 =>
                rw [hr1, hr2] at hrec
                simp only [Option.map_some'] at hrec ⊢
                have hss : sortDict s1 = sortDict s2 := Option.some.inj hrec
                congr 1
                have hm1 : part ∈ D1.keys := LDict.mem_of_get? D1 part _ h1
                have hm2 : part ∈ D2.keys := LDict.mem_of_get? D2 part _ h2
                rw [sortDict_assign_mem _ _ _ hm1, sortDict_assign_mem _ _ _ hm2, hs]
                simp [hss]

theorem insertPaths_sort_congr : ∀ (l : List (List Str × Str)) (D1 D2 : LDict),
    sortDict D1 = sortDict D2 →
    Option.map sortDict (insertPaths D1 l) = Option.map sortDict (insertPaths D2 l)
  | [], D1, D2, hs => by simp [hs]
  | e :: l2, D1, D2, hs => by
    rw [insertPaths_cons, insertPaths_cons]
    have hc := setPath_sort_congr e.1 D1 D2 e.2 hs
    cases h1 : setPath D1 e.1 e.2 with
    | none =>
      cases h2 : setPath D2 e.1 e.2 with
      | none => rfl
      | some a2 => rw [h1, h2] at hc; simp at hc
    | some a1 =>
      cases h2 : setPath D2 e.1 e.2 with
      | none => rw [h1, h2] at hc; simp at hc
      | some a2 =>
        rw [h1, h2] at hc
        simp only [Option.map_some'] at hc
        simp only [Option.some_bind]
        exact insertPaths_sort_congr l2 a1 a2 (Option.some.inj hc)

theorem setPath_leaf_none (d : LDict) (k : Str) (p : List Str) (v s : Str)
    (hget : d.get? k = some (LD.leaf s)) (hp : p ≠ []) :
    setPath d (k :: p) v = none := by
  cases p with
  | nil => exact absurd rfl hp
  | cons p1 ps => simp [setPath, hget]

theorem isPfx_nil (q : List Str) : isPfx [] q = true := rfl

theorem isPfx_ne_nil (p q : List Str) (h : isPfx p q = false) : p ≠ [] := by
  intro hc
  subst hc
  simp [isPfx] at h

theorem isPfx_cons_same (a : Str) (p q : List Str) (h : isPfx (a :: p) (a :: q) = false) :
    isPfx p q = false := by
  simpa [isPfx] using h

/-- Inserting two paths, neither of which is a prefix of the other, produces
the same document up to `sortDict` normalization in either order (including
agreement on failure). -/
theorem setPath2_swap : ∀ (p q : List Str) (vp vq : Str) (D : LDict),
    isPfx p q = false → isPfx q p = false →
    Option.map sortDict ((setPath D p vp).bind (fun a => setPath a q vq))
      = Option.map sortDict ((setPath D q vq).bind (fun a => setPath a p vp))
  | [], q, _, _, _, hpq, _ => by simp [isPfx] at hpq
  | _ :: _, [], _, _, _, _, hqp => by simp [isPfx] at hqp
  | a :: p2, b :: q2, vp, vq, D, hpq, hqp => by
    by_cases hab : a = b
    · subst hab
      have hpq2 : isPfx p2 q2 = false := isPfx_cons_same a p2 q2 hpq
      have hqp2 : isPfx q2 p2 = false := isPfx_cons_same a q2 p2 hqp
      have hp2 : p2 ≠ [] := isPfx_ne_nil p2 q2 hpq2
      have hq2 : q2 ≠ [] := isPfx_ne_nil q2 p2 hqp2
      have ihsw := setPath2_swap p2 q2 vp vq
      cases hget : D.get? a with
      | some x =>
        cases x with
        | leaf s =>
          rw [setPath_leaf_none D a p2 vp s hget hp2,
              setPath_leaf_none D a q2 vq s hget hq2]
          rfl
        | node t =>
          have ih := ihsw t hpq2 hqp2
          have lhs_eq : (setPath D (a :: p2) vp).bind (fun d1 => setPath d1 (a :: q2) vq)
              = ((setPath t p2 vp).bind (fun s1 => setPath s1 q2 vq)).map
                  (fun s1 => D.assign a (LD.node s1)) := by
            rw [setPath_node D a p2 vp t hget hp2]
            cases h1 : setPath t p2 vp with
            | none => rfl
            | some tp =>
              simp only [Option.map_some', Option.some_bind]
              rw [setPath_node (D.assign a (LD.node tp)) a q2 vq tp
                    (LDict.get?_assign_self D a (LD.node tp)) hq2]
              cases h2 : setPath tp q2 vq with
              | none => rfl
              | some s2 => simp [LDict.assign_assign]
          have rhs_eq : (setPath D (a :: q2) vq).bind (fun d1 => setPath d1 (a :: p2) vp)
              = ((setPath t q2 vq).bind (fun s1 => setPath s1 p2 vp)).map
                  (fun s1 => D.assign a (LD.node s1)) := by
            rw [setPath_node D a q2 vq t hget hq2]
            cases h1 : setPath t q2 vq with
            | none => rfl
            | some tq =>
              simp only [Option.map_some', Option.some_bind]
              rw [setPath_node (D.assign a (LD.node tq)) a p2 vp tq
                    (LDict.get?_assign_self D a (LD.node tq)) hp2]
              cases h2 : setPath tq p2 vp with
              | none => rfl
              | some s2 => simp [LDict.assign_assign]
          rw [lhs_eq, rhs_eq]
          have hmem : a ∈ D.keys := LDict.mem_of_get? D a _ hget
          cases hc1 : (setPath t p2 vp).bind (fun s1 => setPath s1 q2 vq) with
          | none =>
            cases hc2 : (setPath t q2 vq).bind (fun s1 => setPath s1 p2 vp) with
            | none => rfl
            | some s2 => rw [hc1, hc2] at ih; simp at ih
          | some s1 =>
            cases hc2 : (setPath t q2 vq).bind (fun s1 => setPath s1 p2 vp) with
            | none => rw [hc1, hc2] at ih; simp at ih
            | some s2 =>
              rw [hc1, hc2] at ih
              simp only [Option.map_some'] at ih ⊢
              have hss : sortDict s1 = sortDict s2 := Option.some.inj ih
              congr 1
              rw [sortDict_assign_mem _ _ _ hmem, sortDict_assign_mem _ _ _ hmem]
              simp [hss]
      | none =>
        have ih := ihsw LDict.nil hpq2 hqp2
        have hfresh : a ∉ D.keys := (LDict.get?_eq_none D a).mp hget
        have lhs_eq : (setPath D (a :: p2) vp).bind (fun d1 => setPath d1 (a :: q2) vq)
            = ((setPath .nil p2 vp).bind (fun s1 => setPath s1 q2 vq)).map
                (fun s1 => D.assign a (LD.node s1)) := by
          rw [setPath_fresh D a p2 vp hget hp2]
          cases h1 : setPath .nil p2 vp with
          | none => rfl
          | some tp =>
            simp only [Option.map_some', Option.some_bind]
            rw [setPath_node (D.assign a (LD.node tp)) a q2 vq tp
                  (LDict.get?_assign_self D a (LD.node tp)) hq2]
            cases h2 : setPath tp q2 vq with
            | none => rfl
            | some s2 => simp [LDict.assign_assign]
        have rhs_eq : (setPath D (a :: q2) vq).bind (fun d1 => setPath d1 (a :: p2) vp)
            = ((setPath .nil q2 vq).bind (fun s1 => setPath s1 p2 vp)).map
                (fun s1 => D.assign a (LD.node s1)) := by
          rw [setPath_fresh D a q2 vq hget hq2]
          cases h1 : setPath .nil q2 vq with
          | none => rfl
          | some tq =>
            simp only [Option.map_some', Option.some_bind]
            rw [setPath_node (D.assign a (LD.node tq)) a p2 vp tq
                  (LDict.get?_assign_self D a (LD.node tq)) hp2]
            cases h2 : setPath tq p2 vp with
            | none => rfl
            | some s2 => simp [LDict.assign_assign]
        rw [lhs_eq, rhs_eq]
        cases hc1 : (setPath .nil p2 vp).bind (fun s1 => setPath s1 q2 vq) with
        | none =>
          cases hc2 : (setPath .nil q2 vq).bind (fun s1 => setPath s1 p2 vp) with
          | none => rfl
          | some s2 => rw [hc1, hc2] at ih; simp at ih
        | some s1 =>
          cases hc2 : (setPath .nil q2 vq).bind (fun s1 => setPath s1 p2 vp) with
          | none => rw [hc1, hc2] at ih; simp at ih
          | some s2 =>
            rw [hc1, hc2] at ih
            simp only [Option.map_some'] at ih ⊢
            have hss : sortDict s1 = sortDict s2 := Option.some.inj ih
            congr 1
            rw [sortDict_assign_fresh _ _ _ hfresh, sortDict_assign_fresh _ _ _ hfresh]
            simp [hss]
    · -- distinct first segments: the two updates touch independent keys
      have hba : b ≠ a := fun hh => hab hh.symm
      rw [setPath_eq_entryStep D a p2 vp, setPath_eq_entryStep D b q2 vq]
      cases ea : entryStep (D.get? a) p2 vp with
      | none =>
        cases eb : entryStep (D.get? b) q2 vq with
        | none => rfl
        | some xb =>
          simp only [Option.map_some', Option.some_bind, Option.map_none', Option.none_bind]
          rw [setPath_eq_entryStep (D.assign b xb) a p2 vp,
              LDict.get?_assign_ne D b a xb hab, ea]
          rfl
      | some xa =>
        cases eb : entryStep (D.get? b) q2 vq with
        | none =>
          simp only [Option.map_some', Option.some_bind, Option.map_none', Option.none_bind]
          rw [setPath_eq_entryStep (D.assign a xa) b q2 vq,
              LDict.get?_assign_ne D a b xa hba, eb]
          rfl
        | some xb =>
          simp only [Option.map_some', Option.some_bind]
          rw [setPath_eq_entryStep (D.assign a xa) b q2 vq,
              LDict.get?_assign_ne D a b xa hba, eb,
              setPath_eq_entryStep (D.assign b xb) a p2 vp,
              LDict.get?_assign_ne D b a xb hab, ea]
          simp only [Option.map_some']
          exact congrArg some (sortDict_assign2_comm D a b xa xb hab)

theorem insertPaths_perm (l1 l2 : List (List Str × Str)) (hperm : l1.Perm l2) :
    l1.Pairwise (fun e1 e2 => isPfx e1.1 e2.1 = false ∧ isPfx e2.1 e1.1 = false) →
    ∀ (D : LDict),
    Option.map sortDict (insertPaths D l1) = Option.map sortDict (insertPaths D l2) := by
  induction hperm with
  | nil => intro _ _; rfl
  | cons x hp ih =>
    intro hpf D
    rw [insertPaths_cons, insertPaths_cons]
    cases hx : setPath D x.1 x.2 with
    | none => rfl
    | some a =>
      simp only [Option.some_bind]
      exact ih (List.pairwise_cons.mp hpf).2 a
  | swap x y t =>
    intro hpf D
    have hxy := (List.pairwise_cons.mp hpf).1 x (by simp)
    have hsw := setPath2_swap y.1 x.1 y.2 x.2 D hxy.1 hxy.2
    simp only [insertPaths_cons]
    rw [← Option.bind_assoc, ← Option.bind_assoc]
    cases ho1 : (setPath D y.1 y.2).bind (fun a => setPath a x.1 x.2) with
    | none =>
      cases ho2 : (setPath D x.1 x.2).bind (fun a => setPath a y.1 y.2) with
      | none => rfl
      | some a2 => rw [ho1, ho2] at hsw; simp at hsw
    | some a1 =>
      cases ho2 : (setPath D x.1 x.2).bind (fun a => setPath a y.1 y.2) with
      | none => rw [ho1, ho2] at hsw; simp at hsw
      | some a2 =>
        rw [ho1, ho2] at hsw
        simp only [Option.map_some'] at hsw
        simp only [Option.some_bind]
        exact insertPaths_sort_congr t a1 a2 (Option.some.inj hsw)
  | trans h1 h2 ih1 ih2 =>
    intro hpf D
    have hpf2 := (h1.pairwise_iff (fun h => ⟨h.2, h.1⟩)).mp hpf
    rw [ih1 hpf D, ih2 hpf2 D]

/-- C7 counterexample: the flat mapping `{"a:b": "v", "a": "w"}` (keys are
unique, so it is a legitimate mapping) does not unflatten to the same
document in every iteration order: with `"a:b"` first the `"a"` entry then
overwrites the branch and the result is `{"a": "w"}`, while with `"a"` first
the walk for `"a:b"` runs into the string `"w"` and the script raises a
`TypeError`. -/
theorem c7_counterexample :
    ([(("a:b").data, "v".data), ("a".data, "w".data)] : List (Str × Str)).Perm
        [("a".data, "w".data), ("a:b".data, "v".data)] ∧
    unflatten_json [("a".data, "w".data), ("a:b".data, "v".data)] = none ∧
    unflatten_json [("a:b".data, "v".data), ("a".data, "w".data)]
      = some (ofL [("a".data, LD.leaf "w".data)]) :=
  ⟨List.Perm.swap ("a".data, "w".data) ("a:b".data, "v".data) [], rfl, rfl⟩

/-- C7 amended: `unflatten_json` is order-independent on every flat mapping
in which no key's segment path is a prefix of another key's segment path:
any two iteration orders then yield the same nested document up to the order
of keys inside each dict, i.e. equal `sort_nested_json` normal forms (Python
dict equality), and they agree on failure. -/
theorem c7_order_independence (l1 l2 : List (Str × Str)) (hperm : l1.Perm l2)
    (hpf : l1.Pairwise (fun e1 e2 =>
      isPfx (splitColon e1.1) (splitColon e2.1) = false ∧
      isPfx (splitColon e2.1) (splitColon e1.1) = false)) :
    Option.map sortDict (unflatten_json l1) = Option.map sortDict (unflatten_json l2) := by
  rw [unflatten_eq_insertPaths, unflatten_eq_insertPaths]
  refine insertPaths_perm _ _ (hperm.map _) ?_ .nil
  rw [List.pairwise_map]
  exact hpf

/-- Witness for C7's amended theorem on a two-entry mapping in both orders. -/
theorem c7_witness :
    Option.map sortDict (unflatten_json [("b".data, "2".data), ("a:c".data, "1".data)])
      = Option.map sortDict (unflatten_json [("a:c".data, "1".data), ("b".data, "2".data)]) :=
  c7_order_independence _ _ (List.Perm.swap ("a:c".data, "1".data) ("b".data, "2".data) [])
    (by decide)

end LocaleUpdater
